import Mathlib

/-!
Verification of the M/EEG source-reconstruction workflow described by the
workshop notebooks (`Beamforming_best_practices.ipynb`,
`Source_reconstruction_with_EEG.ipynb` and the further course notebooks).
The notebooks delegate all numerical work to the MNE-Python library, whose
sources are not part of this repository; following the specification's own
description of the implicit pipeline (signal loading, epoch segmentation,
covariance estimation, spatial-filter/beamformer solving), the relevant
operations are modelled here as executable Lean definitions over exact
rational arithmetic, and the specified properties are proved about them.
-/

open Matrix

/-! ### Channel and recording model

Modelled from the spec: a Sensor Recording carries channel metadata
(channel type: magnetometer `mag` / gradiometer `grad` / electrode `eeg` /
trigger `stim`) and a reference scheme; the notebooks manipulate recordings
through `pick` (channel selection) and `set_eeg_reference` (reference
transform). -/

/-- Channel types occurring in the notebooks: magnetometers, gradiometers,
EEG electrodes and stimulus (trigger) channels. -/
inductive ChanType where
  | mag : ChanType
  | grad : ChanType
  | eeg : ChanType
  | stim : ChanType
deriving DecidableEq, Repr

/-- Modelled from the spec: the channel-metadata part of a Sensor Recording
(or Epoch Collection): its ordered channel-type list and whether an average
EEG reference projection has been added. -/
structure Recording where
  chans : List ChanType
  avgRef : Bool
deriving DecidableEq, Repr

/-- Channel selection: keep exactly the channels whose type is in `sel`,
as in `raw.pick(picks=[...])` in the notebooks. -/
def pickChans (sel : List ChanType) (chs : List ChanType) : List ChanType :=
  chs.filter (fun c => sel.contains c)

/-- The pure channel-selection operation on a recording. -/
def pick (sel : List ChanType) (r : Recording) : Recording :=
  { r with chans := pickChans sel r.chans }

/-- Python-call semantics of `x.pick(sel)` in MNE: the operation mutates the
receiver in place and returns the very same (now mutated) object. The pair
is (new value of the receiver binding, returned object). The notebooks rely
on this: `epochs_sss.load_data().pick(picks=["mag"])` is used for its effect
on `epochs_sss`, and `epochs.load_data().copy().pick(...)` is used when the
original must be preserved. -/
def pick_in_place (sel : List ChanType) (x : Recording) : Recording × Recording :=
  (pick sel x, pick sel x)

/-- An explicit copy of a recording: a fresh object with the same contents,
as produced by `.copy()` in the notebooks. -/
def copyRec (x : Recording) : Recording := x

/-- The `x.copy().pick(sel)` idiom of the notebooks: the original binding
keeps its value, and a derived picked object is returned. The pair is
(value of the original binding afterwards, returned derived object). -/
def copy_then_pick (sel : List ChanType) (x : Recording) : Recording × Recording :=
  (x, pick sel (copyRec x))

/-- The reference transform `raw.set_eeg_reference(ref_channels="average",
projection=True)`: adds an average-reference projection to the receiver in
place and returns the same object. -/
def set_eeg_reference (x : Recording) : Recording :=
  { x with avgRef := true }

/-- Python-call semantics of `x.set_eeg_reference(...)`: mutates the
receiver and returns the same mutated object. -/
def set_eeg_reference_in_place (x : Recording) : Recording × Recording :=
  (set_eeg_reference x, set_eeg_reference x)

/-- The channel makeup of the `sample_audvis_raw.fif` recording loaded by
the notebooks: MEG magnetometers and gradiometers, EEG electrodes and
stimulus channels (one representative channel of each type). -/
def sampleRawRec : Recording :=
  { chans := [ChanType.mag, ChanType.grad, ChanType.eeg, ChanType.stim], avgRef := false }

/-! ### Raw data, Maxwell filtering and event extraction

Modelled from the spec: Maxwell filtering/SSS is delegated to the external
library; the course notebook (`src/unnamed/part_002`) applies it to the MEG
channels of a raw recording and then reuses one events object for both the
filtered and the unfiltered data, with the comment that the stim channels
stay the same. -/

/-- A single data channel: its type together with its sample sequence. -/
structure DataChan where
  kind : ChanType
  data : List ℤ
deriving DecidableEq, Repr

/-- A raw recording with per-channel data. -/
structure RawData where
  chans : List DataChan
deriving DecidableEq, Repr

/-- Modelled from the spec: Maxwell filtering (SSS) applies a spatial
transform `f` to every MEG channel (magnetometers and gradiometers) of the
recording and leaves all other channels, in particular the stimulus
channels, untouched. `mne.preprocessing.maxwell_filter` itself is external
library code not contained in this repository. -/
def maxwell_filter (f : List ℤ → List ℤ) (r : RawData) : RawData :=
  { chans := r.chans.map (fun c =>
      if c.kind = ChanType.mag ∨ c.kind = ChanType.grad then
        { c with data := f c.data }
      else c) }

/-- Event onsets on one trigger channel: `find_events` reports a
(sample index, code) pair at every transition from value `0` to a nonzero
value. `prev` is the previous sample value and `idx` the index of the head
of the remaining sample list. -/
def onsets (prev : ℤ) (idx : ℕ) : List ℤ → List (ℕ × ℤ)
  | [] => []
  | v :: rest =>
      (if prev = 0 ∧ v ≠ 0 then [(idx, v)] else []) ++ onsets v (idx + 1) rest

/-- Modelled from the spec: `mne.find_events` derives the Event Markers of a
raw recording from its stimulus channels alone — for each stim channel, the
list of (sample index, integer code) onset pairs. -/
def find_events (r : RawData) : List (List (ℕ × ℤ)) :=
  (r.chans.filter (fun c => c.kind == ChanType.stim)).map (fun c => onsets 0 0 c.data)

/-! ### Source estimates and the baseline-normalized contrast -/

/-- A source estimate: one amplitude value per source location (flattened
over time in the notebooks; the list layout is immaterial for the frame
property proved about it). -/
structure SourceEstimate where
  vals : List ℚ
deriving DecidableEq, Repr

/-- Element-wise division of two source estimates, the meaning of
`stc_diff /= stc_base` in the notebook. -/
def stc_div (a b : SourceEstimate) : SourceEstimate :=
  { vals := List.zipWith (fun x y => x / y) a.vals b.vals }

/-- The `.copy()` of a source estimate: a fresh object with the same data. -/
def stc_copy (a : SourceEstimate) : SourceEstimate := a

/-- The contrast cell of `Beamforming_best_practices.ipynb`:
`stc_diff = stc_acti.copy()` followed by the in-place `stc_diff /= stc_base`.
The in-place division mutates only the object bound to `stc_diff`, which is
the fresh copy. The triple is the final state of the bindings
(`stc_acti`, `stc_base`, `stc_diff`). -/
def contrast_step (acti base : SourceEstimate) :
    SourceEstimate × SourceEstimate × SourceEstimate :=
  let diff := stc_copy acti
  let diff2 := stc_div diff base
  (acti, base, diff2)

/-! ### Covariance Estimator

Modelled from the spec: `mne.compute_covariance(epochs, tmin, tmax,
method="empirical")` computes the empirical sample covariance across all
epochs and samples in the chosen time window. The estimator itself is
external library code; here it is the average of the outer products of the
channel vectors at every retained sample, over exact rationals. -/

/-- Outer product of a channel vector with itself, the contribution of one
sample to the scatter matrix. -/
def outer {n : ℕ} (x : Fin n → ℚ) : Matrix (Fin n) (Fin n) ℚ :=
  Matrix.of fun i j => x i * x j

/-- Scatter matrix of a list of channel-vector samples: the sum of their
outer products. -/
def scatterOf {n : ℕ} (xs : List (Fin n → ℚ)) : Matrix (Fin n) (Fin n) ℚ :=
  (xs.map outer).sum

/-- Empirical covariance of a list of channel-vector samples: the scatter
matrix divided by the number of samples. -/
def covOf {n : ℕ} (xs : List (Fin n → ℚ)) : Matrix (Fin n) (Fin n) ℚ :=
  ((xs.length : ℚ))⁻¹ • scatterOf xs

/-- The channel-vector samples retained from an epoch collection by a time
window: for each epoch (a channel × time matrix) and each sample index in
the window, the channel vector at that sample. -/
def sampleList {n t : ℕ} (window : List (Fin t))
    (es : List (Matrix (Fin n) (Fin t) ℚ)) : List (Fin n → ℚ) :=
  (es.map (fun e => window.map (fun s => fun i => e i s))).flatten

/-- Modelled from the spec: the Covariance Estimator. Given an Epoch
Collection and a time window, compute the empirical sample covariance
across all epochs and samples in that window. -/
def compute_covariance {n t : ℕ} (window : List (Fin t))
    (es : List (Matrix (Fin n) (Fin t) ℚ)) : Matrix (Fin n) (Fin n) ℚ :=
  covOf (sampleList window es)

/-- Positive semi-definiteness of a rational matrix: every quadratic form
value is non-negative. -/
def IsPosSemidef {n : ℕ} (C : Matrix (Fin n) (Fin n) ℚ) : Prop :=
  ∀ v : Fin n → ℚ, 0 ≤ Matrix.dotProduct v (C.mulVec v)

lemma scatterOf_nil {n : ℕ} : scatterOf ([] : List (Fin n → ℚ)) = 0 := rfl

lemma scatterOf_cons {n : ℕ} (x : Fin n → ℚ) (xs : List (Fin n → ℚ)) :
    scatterOf (x :: xs) = outer x + scatterOf xs := by
  simp [scatterOf]

lemma outer_transpose {n : ℕ} (x : Fin n → ℚ) : (outer x)ᵀ = outer x := by
  ext i j
  simp [outer, mul_comm]

lemma scatterOf_transpose {n : ℕ} (xs : List (Fin n → ℚ)) :
    (scatterOf xs)ᵀ = scatterOf xs := by
  induction xs with
  | nil => simp [scatterOf_nil]
  | cons x xs ih => rw [scatterOf_cons, Matrix.transpose_add, outer_transpose, ih]

lemma mulVec_outer {n : ℕ} (x v : Fin n → ℚ) :
    (outer x).mulVec v = fun i => x i * Matrix.dotProduct x v := by
  funext i
  simp only [Matrix.mulVec, Matrix.dotProduct, outer, Matrix.of_apply, Finset.mul_sum]
  exact Finset.sum_congr rfl fun j _ => by ring

lemma dot_mulVec_outer {n : ℕ} (x v : Fin n → ℚ) :
    Matrix.dotProduct v ((outer x).mulVec v) = Matrix.dotProduct x v * Matrix.dotProduct x v := by
  rw [mulVec_outer]
  simp only [Matrix.dotProduct, Finset.sum_mul]
  exact Finset.sum_congr rfl fun j _ => by ring

lemma scatterOf_posSemidef {n : ℕ} (xs : List (Fin n → ℚ)) :
    IsPosSemidef (scatterOf xs) := by
  intro v
  induction xs with
  | nil => simp [scatterOf_nil]
  | cons x xs ih =>
      rw [scatterOf_cons, Matrix.add_mulVec, Matrix.dotProduct_add, dot_mulVec_outer]
      exact add_nonneg (mul_self_nonneg _) ih

/-- C6: every covariance matrix produced by the covariance estimator (over
any epoch collection and any time window) is symmetric and positive
semi-definite. -/
theorem compute_covariance_symm_posSemidef :
    ∀ (n t : ℕ) (window : List (Fin t)) (es : List (Matrix (Fin n) (Fin t) ℚ)),
      (compute_covariance window es).IsSymm ∧ IsPosSemidef (compute_covariance window es) := by
  intro n t window es
  have hc : (0 : ℚ) ≤ (((sampleList window es).length : ℚ))⁻¹ :=
    inv_nonneg.mpr (Nat.cast_nonneg _)
  constructor
  · show (compute_covariance window es)ᵀ = compute_covariance window es
    unfold compute_covariance covOf
    rw [Matrix.transpose_smul, scatterOf_transpose]
  · intro v
    unfold compute_covariance covOf
    rw [Matrix.smul_mulVec_assoc, Matrix.dotProduct_smul, smul_eq_mul]
    exact mul_nonneg hc (scatterOf_posSemidef _ v)

/-! ### Effective numerical rank and rank deficiency

The spec requires the Covariance Estimator to report the effective
numerical rank of the covariance matrix. Over exact rationals the effective
numerical rank is the matrix rank (`Matrix.rank`); "degrees of freedom
removed" from the data (average referencing, other rank-reducing cleaning)
means the channel-vector samples span a lower-dimensional subspace, i.e.
the data matrix built from the samples has correspondingly lower rank. -/

/-- The data matrix of a list of channel-vector samples: channels × samples,
one column per retained sample. -/
def dataMatrix {n : ℕ} (xs : List (Fin n → ℚ)) : Matrix (Fin n) (Fin xs.length) ℚ :=
  Matrix.of fun i j => xs.get j i

/-- Rank deficiency count of a covariance matrix: channel count minus the
reported effective numerical rank, as an integer. -/
def rank_deficiency (nchan r : ℕ) : ℤ := (nchan : ℤ) - (r : ℤ)

lemma scatterOf_eq_dataMatrix {n : ℕ} (xs : List (Fin n → ℚ)) :
    scatterOf xs = dataMatrix xs * (dataMatrix xs)ᵀ := by
  induction xs with
  | nil =>
      ext i k
      simp [scatterOf_nil, Matrix.mul_apply]
  | cons x xs ih =>
      ext i k
      have h := congrArg (fun M => M i k) ih
      simp only [Matrix.mul_apply, Matrix.transpose_apply, dataMatrix, Matrix.of_apply] at h
      rw [scatterOf_cons]
      simp only [Matrix.add_apply, Matrix.mul_apply, Matrix.transpose_apply, dataMatrix,
        Matrix.of_apply, List.length_cons]
      rw [Fin.sum_univ_succ]
      simp only [List.get_cons_zero, List.get_cons_succ, outer, Matrix.of_apply]
      rw [h]
      congr 1

lemma rank_smul_of_ne_zero {n m : ℕ} (c : ℚ) (hc : c ≠ 0) (M : Matrix (Fin n) (Fin m) ℚ) :
    (c • M).rank = M.rank := by
  rw [Matrix.smul_eq_diagonal_mul]
  refine Matrix.rank_mul_eq_right_of_isUnit_det _ _ ?_
  have hdet : (Matrix.diagonal (fun _ : Fin n => c)).det = c ^ n := by
    simp [Matrix.det_diagonal, Finset.prod_const]
  rw [hdet]
  exact isUnit_iff_ne_zero.mpr (pow_ne_zero _ hc)

/-- C1: for every covariance matrix the rank deficiency count equals the
channel count minus the effective numerical rank and is non-negative; and a
covariance matrix estimated from 60 channels whose sample data span only a
58-dimensional subspace (2 degrees of freedom removed, e.g. by average
referencing plus one other rank-reducing step) reports effective numerical
rank exactly 58, hence deficiency 2. -/
theorem cov_rank_spec :
    (∀ (n : ℕ) (C : Matrix (Fin n) (Fin n) ℚ),
        rank_deficiency n C.rank = (n : ℤ) - (C.rank : ℤ) ∧
          0 ≤ rank_deficiency n C.rank) ∧
    (∀ xs : List (Fin 60 → ℚ), xs ≠ [] → (dataMatrix xs).rank = 58 →
        (covOf xs).rank = 58 ∧ rank_deficiency 60 (covOf xs).rank = 2) := by
  constructor
  · intro n C
    refine ⟨rfl, ?_⟩
    unfold rank_deficiency
    rw [sub_nonneg]
    exact_mod_cast Matrix.rank_le_width C
  · intro xs hne hr
    have hlen : (xs.length : ℚ) ≠ 0 :=
      Nat.cast_ne_zero.mpr (List.length_pos.mpr hne).ne'
    have h1 : (covOf xs).rank = (scatterOf xs).rank :=
      rank_smul_of_ne_zero _ (inv_ne_zero hlen) _
    have h2 : (scatterOf xs).rank = (dataMatrix xs).rank := by
      rw [scatterOf_eq_dataMatrix]
      exact Matrix.rank_self_mul_transpose _
    have h3 : (covOf xs).rank = 58 := by rw [h1, h2, hr]
    exact ⟨h3, by rw [h3]; decide⟩

/-- A concrete sample list from 60 channels spanning exactly 58 dimensions:
the first 58 standard basis vectors, padded with two zero vectors. -/
def witSamples : List (Fin 60 → ℚ) :=
  (List.finRange 60).map (fun k => fun i => if i = k ∧ k.val < 58 then 1 else 0)

/-- The diagonal weight vector matching `witSamples`: 58 ones and 2 zeros. -/
def diagWeights : Fin 60 → ℚ := fun k => if k.val < 58 then 1 else 0

/-- Witness for C1: the scenario instantiated at the concrete sample list. -/
theorem cov_rank_spec_witness :
    witSamples ≠ [] ∧ (covOf witSamples).rank = 58 ∧
      rank_deficiency 60 (covOf witSamples).rank = 2 := by
  have hne : witSamples ≠ [] := by decide
  have hdm : dataMatrix witSamples = Matrix.diagonal diagWeights := by
    refine Matrix.ext ?_
    decide
  have hrank : (dataMatrix witSamples).rank = 58 := by
    rw [hdm, Matrix.rank_diagonal]
    decide
  obtain ⟨h1, h2⟩ := cov_rank_spec.2 witSamples hne hrank
  exact ⟨hne, h1, h2⟩

/-! ### Spatial Filter / Inverse Solver

Modelled from the spec: `mne.beamformer.make_lcmv` (external library code)
derives a Spatial Filter from a Forward Operator and a Covariance Matrix
under a regularization policy. Diagonal loading adds λ·(average channel
power) to the diagonal before inversion; λ defaults to 5% of total power
when the caller does not supply `reg`. If the (possibly loaded) covariance
is singular, the solver must not silently invert: it falls back to a
pseudo-inverse with a caller-visible warning. -/

/-- Average channel power of a covariance matrix: its trace divided by the
channel count. -/
def avgChannelPower {n : ℕ} (C : Matrix (Fin n) (Fin n) ℚ) : ℚ :=
  C.trace / n

/-- Diagonal loading (Tikhonov regularization): add λ·(average channel
power) to the diagonal of the covariance before inversion. -/
def loadDiagonal {n : ℕ} (lam : ℚ) (C : Matrix (Fin n) (Fin n) ℚ) :
    Matrix (Fin n) (Fin n) ℚ :=
  C + (lam * avgChannelPower C) • (1 : Matrix (Fin n) (Fin n) ℚ)

/-- The default regularization fraction: 5% of total power, the `reg=0.05`
default of `make_lcmv`. -/
def defaultReg : ℚ := 5 / 100

/-- The regularization parameter actually used: the caller-supplied value,
or the 5% default when the caller omits `reg`. -/
def resolveReg (regOpt : Option ℚ) : ℚ := regOpt.getD defaultReg

/-- The direct (unregularized) matrix inverse, computable over ℚ via the
adjugate; it coincides with `Matrix.inv`. -/
def directInverse {n : ℕ} (C : Matrix (Fin n) (Fin n) ℚ) :
    Matrix (Fin n) (Fin n) ℚ :=
  (C.det)⁻¹ • C.adjugate

/-- Outcome of inverting a covariance matrix: either a proper inverse, or a
degenerate case with a caller-visible warning (the pseudo-inverse fallback
of the spec failure mode). -/
inductive InvOutcome (n : ℕ) where
  | ok (Cinv : Matrix (Fin n) (Fin n) ℚ) : InvOutcome n
  | degenerate (warning : String) : InvOutcome n

/-- Invert a covariance matrix with no further mitigation: a singular
matrix is reported as degenerate with a warning, never silently inverted. -/
def invertPlain {n : ℕ} (C : Matrix (Fin n) (Fin n) ℚ) : InvOutcome n :=
  if C.det = 0 then
    InvOutcome.degenerate "covariance matrix is rank-deficient: falling back to a pseudo-inverse"
  else InvOutcome.ok (directInverse C)

/-- LCMV beamformer weights for each source location `k` with leadfield
column `l_k`: the unit-gain row `(l_k^T C⁻¹ l_k)⁻¹ l_k^T C⁻¹`. -/
def lcmvWeights {n s : ℕ} (Cinv : Matrix (Fin n) (Fin n) ℚ)
    (L : Matrix (Fin n) (Fin s) ℚ) : Matrix (Fin s) (Fin n) ℚ :=
  Matrix.of fun k j =>
    (Matrix.dotProduct (Matrix.vecMul (fun i => L i k) Cinv) (fun i => L i k))⁻¹ *
      Matrix.vecMul (fun i => L i k) Cinv j

/-- Result of the spatial-filter solver: the derived weights (absent when
the solver declined to produce a proper inverse) and whether a
caller-visible warning was raised. -/
structure LcmvResult (n s : ℕ) where
  weights : Option (Matrix (Fin s) (Fin n) ℚ)
  warned : Bool

/-- Modelled from the spec: `make_lcmv` with the diagonal-loading policy.
The covariance is loaded with the resolved regularization fraction and
inverted; a singular loaded covariance yields no weights and a warning
instead of a silent low-quality result. -/
def make_lcmv {n s : ℕ} (regOpt : Option ℚ) (C : Matrix (Fin n) (Fin n) ℚ)
    (L : Matrix (Fin n) (Fin s) ℚ) : LcmvResult n s :=
  match invertPlain (loadDiagonal (resolveReg regOpt) C) with
  | InvOutcome.ok Ci => ⟨some (lcmvWeights Ci L), false⟩
  | InvOutcome.degenerate _ => ⟨none, true⟩

/-- The solver with no regularization at all: the covariance is inverted
directly, with the same degenerate fallback. -/
def make_lcmv_noreg {n s : ℕ} (C : Matrix (Fin n) (Fin n) ℚ)
    (L : Matrix (Fin n) (Fin s) ℚ) : LcmvResult n s :=
  match invertPlain C with
  | InvOutcome.ok Ci => ⟨some (lcmvWeights Ci L), false⟩
  | InvOutcome.degenerate _ => ⟨none, true⟩

/-- Modelled from the spec: `apply_lcmv_cov` maps a condition's own
covariance through a spatial filter to per-source power estimates
`w_k^T C w_k`. -/
def apply_lcmv_cov {n s : ℕ} (C : Matrix (Fin n) (Fin n) ℚ)
    (W : Matrix (Fin s) (Fin n) ℚ) : Fin s → ℚ :=
  fun k => Matrix.dotProduct (fun i => W k i) (C.mulVec (fun i => W k i))

/-- The condition-contrast workflow of `Beamforming_best_practices.ipynb`:
pool the two conditions' covariances (`cov_common = cov_base + cov_acti`),
derive one filter from the pooled covariance with default regularization,
and apply that same filter separately to each condition's own covariance. -/
def contrast_pipeline {n s : ℕ} (covBase covActi : Matrix (Fin n) (Fin n) ℚ)
    (L : Matrix (Fin n) (Fin s) ℚ) : Option ((Fin s → ℚ) × (Fin s → ℚ)) :=
  match (make_lcmv none (covBase + covActi) L).weights with
  | some W => some (apply_lcmv_cov covBase W, apply_lcmv_cov covActi W)
  | none => none

lemma loadDiagonal_zero {n : ℕ} (C : Matrix (Fin n) (Fin n) ℚ) :
    loadDiagonal 0 C = C := by
  simp [loadDiagonal]

/-- C7: diagonal loading adds λ·(average channel power) to every diagonal
entry of the covariance and nothing to the off-diagonal entries, and when
the caller does not supply a regularization parameter it defaults to
5% (0.05). -/
theorem diag_loading_spec :
    ∀ (n : ℕ) (lam : ℚ) (C : Matrix (Fin n) (Fin n) ℚ),
      (∀ i, loadDiagonal lam C i i = C i i + lam * avgChannelPower C) ∧
      (∀ i j, i ≠ j → loadDiagonal lam C i j = C i j) ∧
      resolveReg none = 5 / 100 := by
  intro n lam C
  refine ⟨fun i => ?_, fun i j hij => ?_, rfl⟩
  · simp [loadDiagonal, Matrix.add_apply, Matrix.smul_apply, Matrix.one_apply_eq]
  · simp [loadDiagonal, Matrix.add_apply, Matrix.smul_apply, Matrix.one_apply_ne hij]

/-- Witness for C7 at a concrete matrix and off-diagonal entry. -/
theorem diag_loading_spec_witness :
    (0 : Fin 2) ≠ 1 ∧
      loadDiagonal 1 (0 : Matrix (Fin 2) (Fin 2) ℚ) 0 1 =
        (0 : Matrix (Fin 2) (Fin 2) ℚ) 0 1 :=
  ⟨by decide, (diag_loading_spec 2 1 0).2.1 0 1 (by decide)⟩

/-- C2: for every rank-deficient covariance passed to the solver with no
mitigation (regularization resolved to 0, no rank truncation, no
whitening in this code path), the solver produces no silent weights: it
returns no filter and raises a caller-visible warning. -/
theorem solver_rank_deficient_no_mitigation :
    ∀ (n s : ℕ) (C : Matrix (Fin n) (Fin n) ℚ) (L : Matrix (Fin n) (Fin s) ℚ)
      (regOpt : Option ℚ), resolveReg regOpt = 0 → C.rank < n →
      (make_lcmv regOpt C L).weights = none ∧ (make_lcmv regOpt C L).warned = true := by
  intro n s C L regOpt hreg hrank
  have hdet : C.det = 0 := by
    by_contra hd
    have hu : C.rank = Fintype.card (Fin n) :=
      Matrix.rank_of_isUnit C ((Matrix.isUnit_iff_isUnit_det C).mpr (isUnit_iff_ne_zero.mpr hd))
    rw [Fintype.card_fin] at hu
    omega
  constructor <;>
    simp [make_lcmv, hreg, loadDiagonal_zero, invertPlain, hdet]

/-- Witness for C2: the zero covariance on two channels with `reg=0.0`. -/
theorem solver_rank_deficient_witness :
    resolveReg (some 0) = 0 ∧ (0 : Matrix (Fin 2) (Fin 2) ℚ).rank < 2 ∧
      (make_lcmv (some 0) (0 : Matrix (Fin 2) (Fin 2) ℚ)
          (0 : Matrix (Fin 2) (Fin 1) ℚ)).weights = none ∧
      (make_lcmv (some 0) (0 : Matrix (Fin 2) (Fin 2) ℚ)
          (0 : Matrix (Fin 2) (Fin 1) ℚ)).warned = true := by
  have h1 : resolveReg (some 0) = 0 := rfl
  have h2 : (0 : Matrix (Fin 2) (Fin 2) ℚ).rank < 2 := by
    rw [Matrix.rank_zero]
    norm_num
  obtain ⟨ha, hb⟩ := solver_rank_deficient_no_mitigation 2 1 0 0 (some 0) h1 h2
  exact ⟨h1, h2, ha, hb⟩

/-- C4: for a well-conditioned (nonsingular) covariance, the solver with
diagonal loading at λ=0 produces exactly the same spatial filter as the
solver with no regularization at all, with no warning raised. -/
theorem diag_loading_zero_eq_noreg :
    ∀ (n s : ℕ) (C : Matrix (Fin n) (Fin n) ℚ) (L : Matrix (Fin n) (Fin s) ℚ),
      C.det ≠ 0 →
      make_lcmv (some 0) C L = make_lcmv_noreg C L ∧
        (make_lcmv (some 0) C L).warned = false := by
  intro n s C L hdet
  have heq : make_lcmv (some 0) C L = make_lcmv_noreg C L := by
    unfold make_lcmv make_lcmv_noreg
    rw [show resolveReg (some 0) = 0 from rfl, loadDiagonal_zero]
  refine ⟨heq, ?_⟩
  rw [heq]
  simp [make_lcmv_noreg, invertPlain, hdet]

/-- Witness for C4: the identity covariance on two channels. -/
theorem diag_loading_zero_witness :
    (1 : Matrix (Fin 2) (Fin 2) ℚ).det ≠ 0 ∧
      make_lcmv (some 0) (1 : Matrix (Fin 2) (Fin 2) ℚ) (0 : Matrix (Fin 2) (Fin 1) ℚ) =
        make_lcmv_noreg 1 0 ∧
      (make_lcmv (some 0) (1 : Matrix (Fin 2) (Fin 2) ℚ)
          (0 : Matrix (Fin 2) (Fin 1) ℚ)).warned = false := by
  have hd : (1 : Matrix (Fin 2) (Fin 2) ℚ).det ≠ 0 := by simp
  obtain ⟨ha, hb⟩ := diag_loading_zero_eq_noreg 2 1 1 0 hd
  exact ⟨hd, ha, hb⟩

/-- C3: the condition-contrast workflow derives one filter from the pooled
covariance and applies it to each condition separately; swapping the order
of the two conditions swaps the pair of outputs but changes neither
condition's individual source estimate (the pooled covariance, hence the
filter, is the same either way). -/
theorem contrast_order_independent :
    ∀ (n s : ℕ) (covBase covActi : Matrix (Fin n) (Fin n) ℚ)
      (L : Matrix (Fin n) (Fin s) ℚ),
      contrast_pipeline covBase covActi L =
        Option.map Prod.swap (contrast_pipeline covActi covBase L) := by
  intro n s a b L
  unfold contrast_pipeline
  rw [add_comm b a]
  cases (make_lcmv none (a + b) L).weights <;> simp

/-! ### Truncated pseudo-inverse

Modelled from the spec: the truncated pseudo-inverse inverts the covariance
only on the subspace spanned by its top-r singular vectors (r the
externally supplied effective rank), projecting the remaining directions to
zero. It is expressed here in the eigenbasis of the covariance, where the
covariance is the diagonal matrix of its singular values, sorted in
descending order so that the top-r directions are the first r indices. -/

/-- Truncated pseudo-inverse of a covariance with singular-value spectrum
`d` (descending): invert the first `r` spectral directions, zero the rest. -/
def truncPinvSpectrum (n r : ℕ) (d : Fin n → ℚ) : Matrix (Fin n) (Fin n) ℚ :=
  Matrix.diagonal (fun i => if i.val < r then (d i)⁻¹ else 0)

/-- C5: for a covariance of full channel rank (no vanishing singular
value), the truncated pseudo-inverse with truncation parameter r equal to
the full channel rank equals the direct unregularized inverse — exactly,
over exact arithmetic, hence within any numerical tolerance. -/
theorem trunc_pinv_full_rank_eq_inverse :
    ∀ (n : ℕ) (d : Fin n → ℚ), (∀ i, d i ≠ 0) →
      truncPinvSpectrum n n d = directInverse (Matrix.diagonal d) := by
  intro n d hd
  unfold directInverse truncPinvSpectrum
  rw [Matrix.det_diagonal, Matrix.adjugate_diagonal, ← Matrix.diagonal_smul]
  have harg : (fun i : Fin n => if i.val < n then (d i)⁻¹ else 0) =
      (∏ j, d j)⁻¹ • fun i => ∏ j ∈ Finset.univ.erase i, d j := by
    funext i
    rw [if_pos i.isLt, Pi.smul_apply, smul_eq_mul]
    have hP : (∏ j ∈ Finset.univ.erase i, d j) ≠ 0 :=
      Finset.prod_ne_zero_iff.mpr fun j _ => hd j
    have hprod : d i * ∏ j ∈ Finset.univ.erase i, d j = ∏ j, d j :=
      Finset.mul_prod_erase _ _ (Finset.mem_univ i)
    rw [← hprod, mul_inv, mul_assoc, inv_mul_cancel₀ hP, mul_one]
  rw [harg]

/-- Witness for C5: the two-channel identity spectrum. -/
theorem trunc_pinv_full_rank_witness :
    (∀ i : Fin 2, (fun _ : Fin 2 => (1 : ℚ)) i ≠ 0) ∧
      truncPinvSpectrum 2 2 (fun _ => 1) =
        directInverse (Matrix.diagonal (fun _ : Fin 2 => (1 : ℚ))) :=
  ⟨fun _ => one_ne_zero, trunc_pinv_full_rank_eq_inverse 2 _ (fun _ => one_ne_zero)⟩

/-! ### Frame properties of the notebook pipelines -/

/-- C8 counterexample: modelling the notebook line
`raw.pick(picks=["eeg", "stim"])` from `Source_reconstruction_with_EEG.ipynb`
on the sample recording, the receiver object does not keep its original
value: MNE channel selection operates in place, so the claim that a pick
leaves the original object unchanged fails at this concrete input. -/
theorem pick_mutates_receiver_cex :
    ¬ (pick_in_place [ChanType.eeg, ChanType.stim] sampleRawRec).1 = sampleRawRec := by
  decide

/-- C8 (amended): pick and re-referencing operate in place — the object
returned by the call is the mutated receiver itself, not a fresh copy; a
derived copy that leaves the original unchanged is obtained by copying
first, the `epochs.load_data().copy().pick(...)` idiom of the notebooks. -/
theorem pick_reference_copy_semantics :
    ∀ (sel : List ChanType) (x : Recording),
      (pick_in_place sel x).2 = (pick_in_place sel x).1 ∧
      (set_eeg_reference_in_place x).2 = (set_eeg_reference_in_place x).1 ∧
      (copy_then_pick sel x).1 = x ∧
      (copy_then_pick sel x).2 = pick sel x :=
  fun _ _ => ⟨rfl, rfl, rfl, rfl⟩

lemma filter_stim_map_sss (f : List ℤ → List ℤ) (l : List DataChan) :
    ((l.map (fun c =>
        if c.kind = ChanType.mag ∨ c.kind = ChanType.grad then
          { c with data := f c.data }
        else c)).filter (fun c => c.kind == ChanType.stim)) =
      l.filter (fun c => c.kind == ChanType.stim) := by
  induction l with
  | nil => rfl
  | cons c t ih =>
      by_cases hc : c.kind = ChanType.stim
      · have hmeg : ¬(c.kind = ChanType.mag ∨ c.kind = ChanType.grad) := by
          rw [hc]
          rintro (h | h) <;> exact ChanType.noConfusion h
        simp only [List.map_cons, List.filter_cons, if_neg hmeg, hc]
        simp [ih, hc]
      · have hkind : (if c.kind = ChanType.mag ∨ c.kind = ChanType.grad then
            { c with data := f c.data } else c).kind = c.kind := by
          split <;> rfl
        simp only [List.map_cons, List.filter_cons, hkind]
        have hb : (c.kind == ChanType.stim) = false := by
          simpa using hc
        simp [hb, ih]

/-- C9: Maxwell filtering leaves the stimulus channels of a raw recording
unchanged, so the event markers found on the unfiltered data equal the
event markers found on the Maxwell-filtered data — one events object can
epoch both, as the notebook does. -/
theorem maxwell_preserves_events :
    ∀ (f : List ℤ → List ℤ) (r : RawData),
      find_events (maxwell_filter f r) = find_events r := by
  intro f r
  unfold find_events maxwell_filter
  rw [filter_stim_map_sss]

/-- C10: the baseline-normalized contrast is computed on a copy
(`stc_diff = stc_acti.copy(); stc_diff /= stc_base`), so forming the
contrast leaves both input source estimates unchanged and the contrast is
the element-wise quotient of the copy by the baseline. -/
theorem contrast_preserves_inputs :
    ∀ (acti base : SourceEstimate),
      (contrast_step acti base).1 = acti ∧
      (contrast_step acti base).2.1 = base ∧
      (contrast_step acti base).2.2 = stc_div (stc_copy acti) base :=
  fun _ _ => ⟨rfl, rfl, rfl⟩
